import Mathlib

set_option maxRecDepth 16384

namespace LegalGenie

/-!
A shallow embedding of the entity canonicalization, matching and fusion core of
the `lg_pipeline` repository (files `app/legal_normalizer.py` and
`app/nodes.py`).  Python strings are modelled as `List Char`; each regular
expression substitution of the source is translated into an explicit scanning
function with the same leftmost-match and backtracking semantics.  Character
classes (`\w`, `\s`, case folding, NFKC) are modelled on the ASCII fragment
(plus the specific Unicode punctuation the source manipulates), which is the
fragment all of the concrete strings in this development live in.
-/

/-! ### Character primitives -/

/-- Lookup in an association list of characters, identity when absent
(mirrors `str.maketrans` / `str.translate` behaviour). -/
def lookupPairs : List (Char × Char) → Char → Char
  | [], c => c
  | (k, v) :: rest, c => if c = k then v else lookupPairs rest c

/-- The 26 uppercase/lowercase ASCII letter pairs. -/
def upperLowerPairs : List (Char × Char) :=
  [('A','a'),('B','b'),('C','c'),('D','d'),('E','e'),('F','f'),('G','g'),
   ('H','h'),('I','i'),('J','j'),('K','k'),('L','l'),('M','m'),('N','n'),
   ('O','o'),('P','p'),('Q','q'),('R','r'),('S','s'),('T','t'),('U','u'),
   ('V','v'),('W','w'),('X','x'),('Y','y'),('Z','z')]

def lowerUpperPairs : List (Char × Char) := upperLowerPairs.map (fun p => (p.2, p.1))

/-- Python `str.lower()` / `str.casefold()` modelled on ASCII. -/
def asciiLower (c : Char) : Char := lookupPairs upperLowerPairs c

/-- Python `str.upper()` modelled on ASCII. -/
def asciiUpper (c : Char) : Char := lookupPairs lowerUpperPairs c

/-- Python regex `\s` (whitespace) on the fragment used by the pipeline:
ASCII whitespace plus NBSP. -/
def isSpaceChar (c : Char) : Bool :=
  c = ' ' || c = '\t' || c = '\n' || c.toNat = 13 || c.toNat = 11 || c.toNat = 12 ||
    c.toNat = 0xa0

def isAsciiLetter (c : Char) : Bool :=
  (65 ≤ c.toNat && c.toNat ≤ 90) || (97 ≤ c.toNat && c.toNat ≤ 122)

def isDigitChar (c : Char) : Bool := 48 ≤ c.toNat && c.toNat ≤ 57

/-- Python regex `\w` (word character), ASCII fragment. -/
def isWordChar (c : Char) : Bool := isAsciiLetter c || isDigitChar c || c = '_'

/-- Whether an optional character (a scan context: `none` at the ends of the
string) is a word character; `\b` holds between two positions iff their
`wordOpt` values differ. -/
def wordOpt : Option Char → Bool
  | none => false
  | some c => isWordChar c

def headWord (l : List Char) : Bool := wordOpt l.head?

/-- `re.sub(r"\s+", " ", ·)`: collapse every whitespace run to one space. -/
def squeezeSpaces : List Char → List Char
  | [] => []
  | [c] => if isSpaceChar c then [' '] else [c]
  | a :: b :: rest =>
    if isSpaceChar a && isSpaceChar b then squeezeSpaces (b :: rest)
    else (if isSpaceChar a then ' ' else a) :: squeezeSpaces (b :: rest)

/-- Python `str.strip()` (whitespace from both ends). -/
def pyStripWs (l : List Char) : List Char :=
  ((l.dropWhile isSpaceChar).reverse.dropWhile isSpaceChar).reverse

/-- `re.sub(r"\s+", " ", t).strip()`. -/
def collapseWsStrip (l : List Char) : List Char := pyStripWs (squeezeSpaces l)

/-- Python `str.strip(chars)`: remove characters of the set from both ends. -/
def stripEnds (set : List Char) (l : List Char) : List Char :=
  ((l.dropWhile (· ∈ set)).reverse.dropWhile (· ∈ set)).reverse

/-- Split on a single separator character (list of pieces, empties kept). -/
def splitOnChar (sep : Char) : List Char → List (List Char)
  | [] => [[]]
  | c :: rest =>
    match splitOnChar sep rest with
    | [] => [[c]]
    | h :: t => if c = sep then [] :: h :: t else (c :: h) :: t

/-- `re.split(r"\s+", ·)`: whitespace runs act as single separators. -/
def splitTokens (l : List Char) : List (List Char) := splitOnChar ' ' (squeezeSpaces l)

/-! ### `legal_normalizer.normalize_unicode` -/

def zeroWidthCodes : List Nat := [0x200b, 0x200c, 0x200d, 0xfeff]

/-- Fold curly quotes to straight quotes (the four `.replace` calls of the
source). -/
def quoteFoldChar (c : Char) : Char :=
  if c.toNat = 0x2018 || c.toNat = 0x2019 then Char.ofNat 39
  else if c.toNat = 0x201c || c.toNat = 0x201d then Char.ofNat 34
  else c

/-- Models `unicodedata.normalize("NFKC", ·)`.  On the ASCII characters and the
curly-quote/dash punctuation manipulated by this pipeline NFKC is the identity,
and it is modelled as the identity map on this fragment. -/
def nfkc (l : List Char) : List Char := l

/-- `legal_normalizer.normalize_unicode` (lines 28-37). -/
def normalize_unicode (l : List Char) : List Char :=
  collapseWsStrip (((nfkc l).filter (fun c => c.toNat ∉ zeroWidthCodes)).map quoteFoldChar)

/-! ### Footnote-marker removal

`re.sub(r"(\b[A-Za-z][A-Za-z\s]*?)(?:\[\d+\]|(\d+))\b", r"\1", t)`
(line 126 of `legal_normalizer.py`).  The lazy tail `[A-Za-z\s]*?` is
realised by trying to finish the match (`footFinish`) before consuming one
more tail character. -/

/-- Attempt `(?:\[\d+\]|(\d+))\b` at the current point.  Returns the rest of
the string after the match together with the last consumed character (the scan
context for subsequent `\b` tests). -/
def footFinish : List Char → Option (List Char × Char)
  | '[' :: rest =>
    let ds := rest.takeWhile isDigitChar
    let r2 := rest.dropWhile isDigitChar
    if ds.isEmpty then none
    else
      match r2 with
      | ']' :: r3 => if headWord r3 then some (r3, ']') else none
      | _ => none
  | l =>
    let ds := l.takeWhile isDigitChar
    let r2 := l.dropWhile isDigitChar
    if ds.isEmpty then none
    else if headWord r2 then none
    else some (r2, ds.getLastD '0')

/-- The lazy `[A-Za-z\s]*?` tail: shortest extension after which `footFinish`
succeeds.  Returns (tail consumed, rest after the whole match, last matched
character). -/
def footTail : List Char → Option (List Char × List Char × Char)
  | [] => none
  | c :: rest =>
    match footFinish (c :: rest) with
    | some (r, lc) => some ([], r, lc)
    | none =>
      if isAsciiLetter c || isSpaceChar c then
        match footTail rest with
        | some (tl, r, lc) => some (c :: tl, r, lc)
        | none => none
      else none

def footScan : Nat → Option Char → List Char → List Char
  | 0, _, l => l
  | _ + 1, _, [] => []
  | fuel + 1, prev, c :: rest =>
    if isAsciiLetter c && !(wordOpt prev) then
      match footTail rest with
      | some (tl, after, lc) => (c :: tl) ++ footScan fuel (some lc) after
      | none => c :: footScan fuel (some c) rest
    else c :: footScan fuel (some c) rest

def footSub (l : List Char) : List Char := footScan l.length none l

/-! ### Trailing judge marker: `re.sub(r"\bJ\.\]?\s*$", "", t.strip())` -/

def judgeTailOk : List Char → Bool
  | '.' :: r2 =>
    r2.all isSpaceChar ||
      (match r2 with
       | ']' :: r3 => r3.all isSpaceChar
       | _ => false)
  | _ => false

def judgeScan : Option Char → List Char → List Char
  | _, [] => []
  | prev, c :: rest =>
    if c = 'J' && !(wordOpt prev) && judgeTailOk rest then []
    else c :: judgeScan (some c) rest

def judgeSub (l : List Char) : List Char := judgeScan none (pyStripWs l)

/-! ### Honorific and stopword removal -/

/-- The punctuation set `".,:;()[]{}\""` used by `str.strip` in both token
filters (braces written via their code points). -/
def tokenPunct : List Char :=
  ['.', ',', ':', ';', '(', ')', '[', ']', Char.ofNat 123, Char.ofNat 125, Char.ofNat 34]

/-- `tok.lower().strip(".,:;()[]{}\"")`. -/
def lowStripTok (tok : List Char) : List Char := stripEnds tokenPunct (tok.map asciiLower)

def honorificsList : List (List Char) :=
  ["sri".data, "smt".data, "shri".data, "dr".data, "justice".data,
   "hon".data ++ [Char.ofNat 39] ++ "ble".data, "honble".data]

def stopwordsList : List (List Char) :=
  ["v".data, "v.".data, "vs".data, "vs.".data, "versus".data, "petitioner".data,
   "respondent".data, "appellant".data, "judgment".data, "order".data, "the".data]

/-- Honorific removal (lines 130-137 of `normalize_legal_entity`): split on
whitespace, drop empty tokens, drop tokens whose lowered/stripped form is an
honorific, re-join with single spaces. -/
def removeHonorifics (l : List Char) : List Char :=
  let toks := (splitTokens l).filter (fun t => t ≠ [])
  List.intercalate [' '] (toks.filter (fun t => lowStripTok t ∉ honorificsList))

/-- `legal_normalizer.strip_stopwords` (lines 40-50). -/
def strip_stopwords (l : List Char) : List Char :=
  let toks := splitTokens l
  pyStripWs (List.intercalate [' '] (toks.filter (fun t => lowStripTok t ∉ stopwordsList)))

/-! ### `legal_normalizer.collapse_initials`

First `re.sub(r"\b(?:[A-Za-z]\.\s*){2,}\s*", repl, text)` where `repl` joins
the letters of the match lowercased, preserving one trailing space when the
match ends in a space; then `re.sub(r"\b([A-Za-z])\.", r"\1", t)`. -/

/-- Greedily consume iterations of `[A-Za-z]\.\s*`; returns (consumed chars,
rest, iteration count). -/
def legalItersAcc : Nat → List Char → Nat → List Char → (List Char × List Char × Nat)
  | 0, acc, n, l => (acc, l, n)
  | fuel + 1, acc, n, l =>
    match l with
    | a :: '.' :: rest =>
      if isAsciiLetter a then
        let sp := rest.takeWhile isSpaceChar
        legalItersAcc fuel (acc ++ a :: '.' :: sp) (n + 1) (rest.dropWhile isSpaceChar)
      else (acc, l, n)
    | _ => (acc, l, n)

def initialsRunScan : Nat → Option Char → List Char → List Char
  | 0, _, l => l
  | _ + 1, _, [] => []
  | fuel + 1, prev, c :: rest =>
    if isAsciiLetter c && !(wordOpt prev) then
      match legalItersAcc (fuel + 1) [] 0 (c :: rest) with
      | (acc, after, n) =>
        if 2 ≤ n then
          let letters := (acc.filter isAsciiLetter).map asciiLower
          let spacer := if acc.getLastD 'x' = ' ' then [' '] else []
          letters ++ spacer ++ initialsRunScan fuel (some (acc.getLastD ' ')) after
        else c :: initialsRunScan fuel (some c) rest
    else c :: initialsRunScan fuel (some c) rest

/-- `re.sub(r"\b([A-Za-z])\.", r"\1", t)`: drop a stray dot after a single
initial. -/
def dotAfterSingleScan : Option Char → List Char → List Char
  | _, [] => []
  | prev, a :: '.' :: rest =>
    if isAsciiLetter a && !(wordOpt prev) then a :: dotAfterSingleScan (some '.') rest
    else a :: dotAfterSingleScan (some a) ('.' :: rest)
  | _, c :: rest => c :: dotAfterSingleScan (some c) rest

def collapse_initials (l : List Char) : List Char :=
  dotAfterSingleScan none (initialsRunScan l.length none l)

/-! ### `legal_normalizer.expand_abbreviations`

`re.sub(r"\b(?:SC|HC)\b\.?", repl, text, flags=re.IGNORECASE)` with
`repl` mapping the lowered, dot-stripped match through
`{sc: "supreme court", hc: "high court"}`. -/

def abbrevScan : Nat → Option Char → List Char → List Char
  | 0, _, l => l
  | _ + 1, _, [] => []
  | fuel + 1, prev, a :: rest =>
    match rest with
    | b :: rest2 =>
      if !(wordOpt prev) && (asciiLower a = 's' || asciiLower a = 'h') &&
          asciiLower b = 'c' && !(headWord rest2) then
        let repl := if asciiLower a = 's' then "supreme court".data else "high court".data
        match rest2 with
        | '.' :: rest3 => repl ++ abbrevScan fuel (some '.') rest3
        | _ => repl ++ abbrevScan fuel (some b) rest2
      else a :: abbrevScan fuel (some a) rest
    | [] => [a]

def expand_abbreviations (l : List Char) : List Char := abbrevScan l.length none l

/-! ### Roman numerals and `normalize_sections` -/

def romanPairValue : Char → Char → Option Nat
  | 'C', 'M' => some 900
  | 'C', 'D' => some 400
  | 'X', 'C' => some 90
  | 'X', 'L' => some 40
  | 'I', 'X' => some 9
  | 'I', 'V' => some 4
  | _, _ => none

def romanSingle : Char → Nat
  | 'M' => 1000
  | 'D' => 500
  | 'C' => 100
  | 'L' => 50
  | 'X' => 10
  | 'V' => 5
  | 'I' => 1
  | _ => 0

/-- `legal_normalizer.roman_to_int` (lines 77-88): two-symbol subtractive pairs
first, then single symbols, unknown symbols count 0. -/
def roman_to_int_go : List Char → Nat
  | a :: b :: rest =>
    match romanPairValue a b with
    | some v => v + roman_to_int_go rest
    | none => romanSingle a + roman_to_int_go (b :: rest)
  | [a] => romanSingle a
  | [] => 0

def roman_to_int (l : List Char) : Nat := roman_to_int_go (l.map asciiUpper)

def isRomanChar (c : Char) : Bool := asciiLower c ∈ ['i', 'v', 'x', 'l', 'c', 'd', 'm']

/-- `\s+` after a section keyword: at least one whitespace char. -/
def spacePlus (l : List Char) : Option (List Char) :=
  if (l.takeWhile isSpaceChar).isEmpty then none else some (l.dropWhile isSpaceChar)

/-- Alternative `s\.?\s+` of `SECTION_PAT` (if the dot is present, the
whitespace must follow it; backtracking over `\.?` cannot help since `.` is
not whitespace). -/
def sectionHeadA : List Char → Option (List Char)
  | c :: '.' :: rest => if asciiLower c = 's' then spacePlus rest else none
  | c :: rest => if asciiLower c = 's' then spacePlus rest else none
  | [] => none

/-- Alternative `sec(?:tion)?\s+` of `SECTION_PAT` (greedy `(?:tion)?` with
fallback when no whitespace follows `tion`). -/
def sectionHeadB : List Char → Option (List Char)
  | a :: b :: c :: rest =>
    if asciiLower a = 's' && asciiLower b = 'e' && asciiLower c = 'c' then
      match rest with
      | t :: i :: o :: n :: rest2 =>
        if asciiLower t = 't' && asciiLower i = 'i' && asciiLower o = 'o' &&
            asciiLower n = 'n' then
          match spacePlus rest2 with
          | some r => some r
          | none => spacePlus rest
        else spacePlus rest
      | _ => spacePlus rest
    else none
  | _ => none

/-- The optional `(?:-?([A-Za-z]\w*))?` tail.  Returns the captured letters and
the rest when the group matches; `none` when it is absent. -/
def sectionTail : List Char → Option (List Char × List Char)
  | '-' :: c :: rest =>
    if isAsciiLetter c then some (c :: rest.takeWhile isWordChar, rest.dropWhile isWordChar)
    else none
  | c :: rest =>
    if isAsciiLetter c then some (c :: rest.takeWhile isWordChar, rest.dropWhile isWordChar)
    else none
  | [] => none

/-- Greedy `[ivxlcdm]+` with backtracking against the tail/boundary: try run
lengths from `k` down to 1.  Returns (numeral, tail letters, rest). -/
def romanTry : Nat → List Char → Option (List Char × List Char × List Char)
  | 0, _ => none
  | k + 1, l =>
    let num := l.take (k + 1)
    let after := l.drop (k + 1)
    match sectionTail after with
    | some (tl, r2) => some (num, tl, r2)
    | none =>
      if headWord after then romanTry k l else some (num, [], after)

/-- The number-and-tail part `([ivxlcdm]+|\d+)(?:-?([A-Za-z]\w*))?\b`.
Returns (number chars, is-roman, tail letters, rest, last matched char). -/
def sectionNumTail (l : List Char) : Option (List Char × Bool × List Char × List Char × Char) :=
  let rom := l.takeWhile isRomanChar
  if rom.isEmpty then
    let ds := l.takeWhile isDigitChar
    if ds.isEmpty then none
    else
      let after := l.drop ds.length
      match sectionTail after with
      | some (tl, r2) => some (ds, false, tl, r2, tl.getLastD '0')
      | none =>
        if headWord after then none else some (ds, false, [], after, ds.getLastD '0')
  else
    match romanTry rom.length l with
    | some (num, tl, r2) =>
      some (num, true, tl, r2, (if tl.isEmpty then num else tl).getLastD '0')
    | none => none

/-- A whole `SECTION_PAT` match attempt at the current position (the `\b`
before it is checked by the caller).  Returns (replacement, rest, last matched
char). -/
def sectionMatchAt (l : List Char) : Option (List Char × List Char × Char) :=
  let head :=
    match sectionHeadA l with
    | some r => some r
    | none => sectionHeadB l
  match head with
  | none => none
  | some rest =>
    match sectionNumTail rest with
    | none => none
    | some (num, isRom, tl, after, lastc) =>
      some ("section ".data ++
              (if isRom then (Nat.repr (roman_to_int num)).data else num) ++
              tl.map asciiLower,
            after, lastc)

def sectionScan : Nat → Option Char → List Char → List Char
  | 0, _, l => l
  | _ + 1, _, [] => []
  | fuel + 1, prev, c :: rest =>
    if !(wordOpt prev) then
      match sectionMatchAt (c :: rest) with
      | some (repl, after, lastc) => repl ++ sectionScan fuel (some lastc) after
      | none => c :: sectionScan fuel (some c) rest
    else c :: sectionScan fuel (some c) rest

/-- `legal_normalizer.normalize_sections` (lines 91-98). -/
def normalize_sections (l : List Char) : List Char := sectionScan l.length none l

/-! ### `legal_normalizer.phonetic_key` -/

def soundexDigit (c : Char) : Char :=
  if c ∈ ['B', 'F', 'P', 'V'] then '1'
  else if c ∈ ['C', 'G', 'J', 'K', 'Q', 'S', 'X', 'Z'] then '2'
  else if c ∈ ['D', 'T'] then '3'
  else if c = 'L' then '4'
  else if c ∈ ['M', 'N'] then '5'
  else if c = 'R' then '6'
  else c

def dropSoundexVowels (l : List Char) : List Char :=
  l.filter (fun c => c ∉ ['A', 'E', 'I', 'O', 'U', 'Y', 'H', 'W'])

/-- `re.sub(r"(\d)\1+", r"\1", ·)`: collapse runs of equal digits. -/
def collapseEqualDigits : List Char → List Char
  | [] => []
  | [c] => [c]
  | a :: b :: rest =>
    if a = b && isDigitChar a then collapseEqualDigits (b :: rest)
    else a :: collapseEqualDigits (b :: rest)

/-- `legal_normalizer.phonetic_key` (lines 101-120). -/
def phonetic_keyL (l : List Char) : List Char :=
  let t := (l.filter isAsciiLetter).map asciiUpper
  match t with
  | [] => []
  | first :: tail =>
    let digits := collapseEqualDigits (dropSoundexVowels (tail.map soundexDigit))
    ((first :: digits) ++ ['0', '0', '0']).take 4

def phonetic_key (s : String) : String := String.mk (phonetic_keyL s.data)

/-! ### `legal_normalizer.normalize_legal_entity` -/

def isDashChar (c : Char) : Bool := c.toNat = 0x2013 || c.toNat = 0x2014 || c = '-'

/-- `re.sub(r"[–—\-–—]+", " ", t)`: each dash run becomes one
space. -/
def dashSub : List Char → List Char
  | [] => []
  | [c] => if isDashChar c then [' '] else [c]
  | a :: b :: rest =>
    if isDashChar a && isDashChar b then dashSub (b :: rest)
    else (if isDashChar a then ' ' else a) :: dashSub (b :: rest)

/-- `legal_normalizer.normalize_legal_entity` (lines 123-151), with `casefold`
modelled as ASCII lowering. -/
def normalize_legal_entityL (l : List Char) : List Char :=
  let t := normalize_unicode l
  let t := footSub t
  let t := judgeSub t
  let t := removeHonorifics t
  let t := strip_stopwords t
  let t := collapse_initials t
  let t := expand_abbreviations t
  let t := normalize_sections t
  let t := dashSub t
  let t := (collapseWsStrip t).map asciiLower
  t.filter (fun c => !(isSpaceChar c))

def normalize_legal_entity (s : String) : String :=
  String.mk (normalize_legal_entityL s.data)

/-! ## `app/nodes.py`: canonical entity key helpers -/

/-- The `\b(vs?\.)\b` attempt after an initial `v`/`V` was consumed: optional
`s`, a dot, and a trailing `\b` (which, after a dot, requires a following word
character). -/
def vsTry : List Char → Option (List Char)
  | s :: '.' :: rest => if asciiLower s = 's' && headWord rest then some rest else none
  | '.' :: rest => if headWord rest then some rest else none
  | _ => none

/-- `re.sub(r"\b(vs?\.)\b", " ", s, flags=re.IGNORECASE)` (line 32 of
`nodes.py`). -/
def vsScan : Nat → Option Char → List Char → List Char
  | 0, _, l => l
  | _ + 1, _, [] => []
  | fuel + 1, prev, c :: rest =>
    if asciiLower c = 'v' && !(wordOpt prev) then
      match vsTry rest with
      | some r2 => ' ' :: vsScan fuel (some '.') r2
      | none => c :: vsScan fuel (some c) rest
    else c :: vsScan fuel (some c) rest

/-! The initials collapse of `_normalize_text`:
`re.sub(r"\b(?:[A-Za-z]\.?\s*){2,}\b", collapse, s)` with `collapse` joining
the letters of the match.  The greedy iteration `[A-Za-z]\.?\s*` consumes a
letter, an optional dot and optional whitespace; when the final `\b` fails the
engine backtracks one character at a time, never below the end of the second
iteration's letter.  `nodesItersAcc` performs the greedy consumption and
`cutSearch` resolves the backtracking: the largest cut position at which a
word boundary holds. -/

def nodesItersAcc : Nat → List Char → Nat → Nat → List Char → (List Char × List Char × Nat × Nat)
  | 0, acc, n, second, l => (acc, l, n, second)
  | fuel + 1, acc, n, second, l =>
    match l with
    | c :: rest =>
      if isAsciiLetter c then
        match rest with
        | '.' :: r2 =>
          let sp := r2.takeWhile isSpaceChar
          let n' := n + 1
          let second' := if n' = 2 then acc.length + 1 else second
          nodesItersAcc fuel (acc ++ c :: '.' :: sp) n' second' (r2.dropWhile isSpaceChar)
        | _ =>
          let sp := rest.takeWhile isSpaceChar
          let n' := n + 1
          let second' := if n' = 2 then acc.length + 1 else second
          nodesItersAcc fuel (acc ++ c :: sp) n' second' (rest.dropWhile isSpaceChar)
      else (acc, l, n, second)
    | [] => (acc, [], n, second)

/-- Is there a word boundary at cut position `k` of `acc ++ after`? -/
def cutBoundary (acc after : List Char) (k : Nat) : Bool :=
  wordOpt (acc.get? (k - 1)) != wordOpt ((acc.drop k ++ after).head?)

/-- Try cut positions `k, k-1, …` (at most `cnt` of them) for a word
boundary. -/
def cutSearch (acc after : List Char) : Nat → Nat → Option Nat
  | 0, _ => none
  | cnt + 1, k => if cutBoundary acc after k then some k else cutSearch acc after cnt (k - 1)

def nodesInitialsScan : Nat → Option Char → List Char → List Char
  | 0, _, l => l
  | _ + 1, _, [] => []
  | fuel + 1, prev, c :: rest =>
    if isAsciiLetter c && !(wordOpt prev) then
      match nodesItersAcc (fuel + 1) [] 0 0 (c :: rest) with
      | (acc, after, n, second) =>
        if 2 ≤ n then
          match cutSearch acc after (acc.length - second + 1) acc.length with
          | some k =>
            let matched := acc.take k
            matched.filter isAsciiLetter ++
              nodesInitialsScan fuel matched.getLast? (acc.drop k ++ after)
          | none => c :: nodesInitialsScan fuel (some c) rest
        else c :: nodesInitialsScan fuel (some c) rest
    else c :: nodesInitialsScan fuel (some c) rest

/-- The edge punctuation set `" .,:;()[]{}\"' "` of `_normalize_text`
(braces, double quote, apostrophe and NBSP written via code points). -/
def stripEdgeSet : List Char :=
  [' ', '.', ',', ':', ';', '(', ')', '[', ']', Char.ofNat 123, Char.ofNat 125,
   Char.ofNat 34, Char.ofNat 39, Char.ofNat 0xa0]

/-- `nodes._normalize_text` (lines 24-44), with `casefold` modelled as ASCII
lowering. -/
def normTextL (l : List Char) : List Char :=
  let s := nfkc l
  let s := s.filter (fun c => c.toNat ≠ 0x200b)
  let s := s.map quoteFoldChar
  let s := vsScan s.length none s
  let s := nodesInitialsScan s.length none s
  let s := collapseWsStrip s
  let s := stripEnds stripEdgeSet s
  s.map asciiLower

def normalize_text (s : String) : String := String.mk (normTextL s.data)

/-- `nodes._normalize_label` (lines 19-21): `(label or "").strip().upper()`. -/
def normalize_label (label : Option String) : String :=
  String.mk ((pyStripWs (label.getD "").data).map asciiUpper)

/-- `nodes.make_entity_key` (lines 47-49). -/
def make_entity_key (label : Option String) (text : String) : String :=
  normalize_label label ++ "|" ++ normalize_text text

/-- Stated from the spec's words for the key-builder contract: "`label` is
upper-cased/trimmed (empty if absent)" — upper-case first, then trim. -/
def specLabelUpperTrim (label : Option String) : String :=
  String.mk (pyStripWs ((label.getD "").data.map asciiUpper))

/-! ## Keyword augmentation (`nodes._augment_entities_with_keywords`) -/

/-- The fields of an entity dict that the augmentation reads or writes. -/
structure PyEntity where
  label : Option String
  text : List Char
  start : Nat
  stop : Nat
  score : Option ℚ
  augmented : Bool
deriving DecidableEq

/-- Case-insensitive keyword match at the head of `l` followed by the negative
lookahead `(?!\w)` (`kw` is all-lowercase). -/
def matchesKeywordAt : List Char → List Char → Bool
  | [], rest => !(headWord rest)
  | k :: ks, c :: rest => asciiLower c = k && matchesKeywordAt ks rest
  | _ :: _, [] => false

structure KwMatch where
  start : Nat
  stop : Nat
  span : List Char
deriving DecidableEq

def courtLower : List Char := "court".data

/-- All matches of `(?i)(?<!\w)court(?!\w)` in scan order, as produced by
`re.finditer`.  (Matches of this pattern can never overlap — no proper prefix
of `court` is also a suffix — so advancing one character per step yields
exactly the `finditer` matches.) -/
def kwScan (kw : List Char) : Nat → Option Char → List Char → List KwMatch
  | _, _, [] => []
  | pos, prev, c :: rest =>
    if !(wordOpt prev) && matchesKeywordAt kw (c :: rest) then
      ⟨pos, pos + kw.length, (c :: rest).take kw.length⟩ ::
        kwScan kw (pos + 1) (some c) rest
    else kwScan kw (pos + 1) (some c) rest

/-- The character before position `i` (`none` at the start of the string). -/
def prevCharAt (text : List Char) (i : Nat) : Option Char :=
  if i = 0 then none else text[i - 1]?

/-- Stated from the claim's words: the text contains the standalone word
`court` at position `i` — five characters that case-insensitively spell
`court`, adjacent to no word character on either side. -/
def standaloneOccB (text : List Char) (i : Nat) : Bool :=
  decide (((text.drop i).take 5).map asciiLower = courtLower) &&
    !(wordOpt (prevCharAt text i)) && !(wordOpt text[i + 5]?)

/-- The positions in `[i, i + n)` holding standalone occurrences, in order. -/
def occIdx (text : List Char) : Nat → Nat → List Nat
  | 0, _ => []
  | n + 1, i =>
    if standaloneOccB text i then i :: occIdx text n (i + 1) else occIdx text n (i + 1)

/-- The match data of a standalone occurrence at position `i`. -/
def courtMatchAt (text : List Char) (i : Nat) : KwMatch :=
  ⟨i, i + 5, (text.drop i).take 5⟩

/-- The inner `for m in re.finditer(...)` loop: skip occurrences whose
normalized span is already present, append the first novel one, then break. -/
def augLoop (existing : List (List Char)) : List KwMatch → Option KwMatch
  | [] => none
  | m :: ms => if normTextL m.span ∈ existing then augLoop existing ms else some m

/-- `{_normalize_text(e.get("text")) for e in entities if e.get("text")}`
(as a list used only through membership). -/
def existingNorms (ents : List PyEntity) : List (List Char) :=
  (ents.filter (fun e => e.text ≠ [])).map (fun e => normTextL e.text)

/-- `nodes._augment_entities_with_keywords` (lines 59-80), specialized to the
single entry `KEYWORD_ENTITY_MAP = {"court": "ORG"}` of the source. -/
def augment_entities_with_keywords (text : List Char) (ents : List PyEntity) : List PyEntity :=
  match augLoop (existingNorms ents) (kwScan courtLower 0 none text) with
  | some m => ents ++ [⟨some "ORG", m.span, m.start, m.stop, some 1, true⟩]
  | none => ents

/-! ## Generic list helpers (dedup, sorting, tag maps) -/

/-- Boolean list membership through `DecidableEq` (kept explicit so that every
closed computation reduces in the kernel). -/
def memB [DecidableEq α] (a : α) : List α → Bool
  | [] => false
  | b :: rest => if a = b then true else memB a rest

/-- First-occurrence dedup against an already-seen set. -/
def dedupSeen [DecidableEq α] (seen : List α) : List α → List α
  | [] => []
  | a :: rest => if memB a seen then dedupSeen seen rest else a :: dedupSeen (a :: seen) rest

/-- Drop duplicates keeping the first occurrence. -/
def dedupKeepFirst [DecidableEq α] (l : List α) : List α := dedupSeen [] l

/-- The `seen`-threaded emission loops of `merge_ids_node` and
`neo4j_query_by_entities_node`: returns the emitted list and the final seen
set. -/
def mergeLoop [DecidableEq α] (seen : List α) : List α → (List α × List α)
  | [] => ([], seen)
  | a :: rest =>
    if memB a seen then mergeLoop seen rest
    else
      let (o, s) := mergeLoop (a :: seen) rest
      (a :: o, s)

/-- Lexicographic (code-point) string order, as used by Python's `sorted`. -/
def strLeB : List Char → List Char → Bool
  | [], _ => true
  | _ :: _, [] => false
  | a :: as, b :: bs =>
    if a.toNat < b.toNat then true
    else if b.toNat < a.toNat then false
    else strLeB as bs

def insertSorted (a : String) : List String → List String
  | [] => [a]
  | b :: rest => if strLeB a.data b.data then a :: b :: rest else b :: insertSorted a rest

/-- `sorted(...)` on strings (insertion sort). -/
def sortStrings : List String → List String
  | [] => []
  | a :: rest => insertSorted a (sortStrings rest)

/-- `dict.setdefault(id, set()).add(tag)` over an insertion-ordered dict of
string sets (the set represented as a dedup-on-insert list). -/
def addSetTag : List (String × List String) → String → String → List (String × List String)
  | [], id, tag => [(id, [tag])]
  | (k, v) :: rest, id, tag =>
    if k = id then (k, if tag ∈ v then v else v ++ [tag]) :: rest
    else (k, v) :: addSetTag rest id tag

/-- `dict.setdefault(id, []).append(tag)` over an insertion-ordered dict of
string lists. -/
def addListTag : List (String × List String) → String → String → List (String × List String)
  | [], id, tag => [(id, [tag])]
  | (k, v) :: rest, id, tag =>
    if k = id then (k, v ++ [tag]) :: rest
    else (k, v) :: addListTag rest id tag

def lookupTags : List (String × List String) → String → Option (List String)
  | [], _ => none
  | (k, v) :: rest, id => if k = id then some v else lookupTags rest id



/-! ## Graph matcher (`nodes.neo4j_query_by_entities_node`, lines 954-1083)

The Neo4j store and the two Cypher queries are modelled relationally:
`GraphDB` holds the `Entity`, `Alias`, `PhoneticAlias` and `MENTIONS` data,
and each `UNION` arm of `query_tx_strict` / `query_tx_text_only` becomes a
list comprehension over it.  Driver/session failures are modelled by an
`Except` value carried in the input state. -/

/-- A query entity dict: `label` may be absent (`None`), `text` empty models a
falsy `e.get("text")`. -/
structure QEnt where
  label : Option String
  text : String
deriving DecidableEq

structure GEntity where
  key : String
  normKey : Option String
deriving DecidableEq

structure GraphDB where
  entities : List GEntity
  aliases : List (String × String)
  phoneticAliases : List (String × String)
  mentions : List (String × String)
deriving DecidableEq

/-- A row `(ekey, id, reason, cnt)` returned by the Cypher queries. -/
structure Row where
  ekey : String
  cid : String
  reason : String
  cnt : Nat
deriving DecidableEq

/-- The `keys` list built from the query entities (one `make_entity_key` per
entity with truthy text). -/
def queryKeys (ents : List QEnt) : List String :=
  (ents.filter (fun e => e.text ≠ "")).map (fun e => make_entity_key e.label e.text)

/-- The `norm_aliases` list: non-empty `normalize_legal_entity` results. -/
def queryNormAliases (ents : List QEnt) : List String :=
  (ents.filter (fun e => e.text ≠ "")).filterMap (fun e =>
    let nt := normalize_legal_entity e.text
    if nt = "" then none else some nt)

/-- The `norm_keys` list: label-aware keys of the normalized text, only for
entities whose label is present. -/
def queryNormKeys (ents : List QEnt) : List String :=
  (ents.filter (fun e => e.text ≠ "")).filterMap (fun e =>
    let nt := normalize_legal_entity e.text
    if nt = "" then none
    else
      match e.label with
      | some lab => some (make_entity_key (some lab) nt)
      | none => none)

/-- The `phonetics` list: non-empty phonetic keys of the non-empty normalized
texts. -/
def queryPhonetics (ents : List QEnt) : List String :=
  (ents.filter (fun e => e.text ≠ "")).filterMap (fun e =>
    let nt := normalize_legal_entity e.text
    if nt = "" then none
    else
      let ph := phonetic_key nt
      if ph = "" then none else some ph)

/-- Cypher `split(s,'|')[1]`: `none` models the `null` produced when the list
has no second element. -/
def splitPipe1 (s : String) : Option String :=
  ((splitOnChar '|' s.data).map String.mk).get? 1

/-- Chunks mentioning the entity with key `ekey`
(`(c:Chunk)-[:MENTIONS]->(e)`). -/
def mentionChunksOf (db : GraphDB) (ekey : String) : List String :=
  (db.mentions.filter (fun m => m.2 = ekey)).map (fun m => m.1)

/-- Group `(ekey, id, reason)` match instances into rows with `count(*)`,
first-occurrence order. -/
def groupRows (l : List (String × String × String)) : List Row :=
  (dedupKeepFirst l).map (fun t => ⟨t.1, t.2.1, t.2.2, l.count t⟩)

/-- Arm 1 of `query_tx_strict`: `UNWIND $keys … MATCH (e:Entity {key: key})
<-[:MENTIONS]-(c) RETURN …, 'direct', count(*)`. -/
def strictDirectRows (db : GraphDB) (keys : List String) : List Row :=
  groupRows (keys.flatMap (fun k =>
    (db.entities.filter (fun e => e.key = k)).flatMap (fun e =>
      (mentionChunksOf db e.key).map (fun c => (e.key, c, "direct")))))

/-- Arm 2: match on `Entity.norm_key`. -/
def strictNormKeyRows (db : GraphDB) (normKeys : List String) : List Row :=
  groupRows (normKeys.flatMap (fun nk =>
    (db.entities.filter (fun e => e.normKey = some nk)).flatMap (fun e =>
      (mentionChunksOf db e.key).map (fun c => (e.key, c, "norm_key")))))

/-- Arm 3: `split(key,'|')[1]` joined through `Alias -ALIAS_OF-> Entity`. -/
def strictAliasRows (db : GraphDB) (keys : List String) : List Row :=
  groupRows (keys.flatMap (fun k =>
    match splitPipe1 k with
    | none => []
    | some nt =>
      (db.aliases.filter (fun al => al.1 = nt)).flatMap (fun al =>
        (db.entities.filter (fun e => e.key = al.2)).flatMap (fun e =>
          (mentionChunksOf db e.key).map (fun c => (e.key, c, "alias"))))))

/-- Arm 4: every key times every phonetic code, joined through
`PhoneticAlias -PHONETIC_OF-> Entity` (the key's split text is computed but
unused in the source query). -/
def strictPhoneticRows (db : GraphDB) (keys phonetics : List String) : List Row :=
  groupRows (keys.flatMap (fun _ =>
    phonetics.flatMap (fun ph =>
      (db.phoneticAliases.filter (fun pl => pl.1 = ph)).flatMap (fun pl =>
        (db.entities.filter (fun e => e.key = pl.2)).flatMap (fun e =>
          (mentionChunksOf db e.key).map (fun c => (e.key, c, "phonetic")))))))

/-- All rows of the strict unioned query (`UNION` removes duplicate rows). -/
def strictRows (db : GraphDB) (keys normKeys phonetics : List String) : List Row :=
  dedupKeepFirst
    (strictDirectRows db keys ++ strictNormKeyRows db normKeys ++
      strictAliasRows db keys ++ strictPhoneticRows db keys phonetics)

/-- Arm 1 of `query_tx_text_only`: label-agnostic text equality against the
split of `Entity.key` or `Entity.norm_key`. -/
def relaxedTextRows (db : GraphDB) (norms : List String) : List Row :=
  groupRows (norms.flatMap (fun nt =>
    (db.entities.filter (fun e =>
        splitPipe1 e.key = some nt ||
          (match e.normKey with
           | some nk => splitPipe1 nk = some nt
           | none => false))).flatMap (fun e =>
      (mentionChunksOf db e.key).map (fun c => (e.key, c, "text_norm")))))

/-- Arm 2 of `query_tx_text_only`: alias equality. -/
def relaxedAliasRows (db : GraphDB) (norms : List String) : List Row :=
  groupRows (norms.flatMap (fun nt =>
    (db.aliases.filter (fun al => al.1 = nt)).flatMap (fun al =>
      (db.entities.filter (fun e => e.key = al.2)).flatMap (fun e =>
        (mentionChunksOf db e.key).map (fun c => (e.key, c, "alias"))))))

/-- Arm 3 of `query_tx_text_only`: phonetic equality. -/
def relaxedPhoneticRows (db : GraphDB) (phonetics : List String) : List Row :=
  groupRows (phonetics.flatMap (fun ph =>
    (db.phoneticAliases.filter (fun pl => pl.1 = ph)).flatMap (fun pl =>
      (db.entities.filter (fun e => e.key = pl.2)).flatMap (fun e =>
        (mentionChunksOf db e.key).map (fun c => (e.key, c, "phonetic"))))))

/-- All rows of the relaxed (label-agnostic) fallback query. -/
def relaxedRows (db : GraphDB) (norms phonetics : List String) : List Row :=
  dedupKeepFirst
    (relaxedTextRows db norms ++ relaxedAliasRows db norms ++
      relaxedPhoneticRows db phonetics)

/-- The state fields read by `neo4j_query_by_entities_node`.  `db` models the
driver/session: `Except.error msg` is a driver exception whose `str` is
`msg`. -/
structure KgInput where
  entities : List QEnt
  strictMatch : Bool
  password : Option String
  kgLimit : Nat
  rulerQuery : Bool
  db : Except String GraphDB

/-- The state fields written by `neo4j_query_by_entities_node`.  `usedRelaxed`
and `rowsUsed` record, for the embedding, which query's rows the node
processed (the source binds them to the local `rows`). -/
structure KgResult where
  kgIds : List String
  kgAvailable : Bool
  kgError : Option String
  kgMatchedKeys : List String
  kgRequestedKeys : List String
  kgMatchReasons : List (String × List String)
  kgRulerHitIds : List String
  usedRelaxed : Bool
  rowsUsed : List Row
deriving DecidableEq

/-- `nodes.neo4j_query_by_entities_node` (lines 954-1083).  The `kg_limit`
state field (line 988) is read into a query parameter, but the Cypher text of
both queries never references `$limit`, so the resolution does not depend on
it. -/
def neo4j_query_by_entities_node (inp : KgInput) : KgResult :=
  let keys := queryKeys inp.entities
  let normKeys := queryNormKeys inp.entities
  let norms := queryNormAliases inp.entities
  let phonetics := queryPhonetics inp.entities
  if keys = [] then
    ⟨[], true, none, [], [], [], [], false, []⟩
  else if inp.password.getD "" = "" then
    ⟨[], false, some "neo4j_password not provided", [], [], [], [], false, []⟩
  else
    match inp.db with
    | Except.error e => ⟨[], false, some e, [], keys, [], [], false, []⟩
    | Except.ok db =>
      let sRows := strictRows db keys normKeys phonetics
      let useRelaxed := sRows.isEmpty && !inp.strictMatch
      let rows := if useRelaxed then relaxedRows db norms phonetics else sRows
      let ids := rows.map (fun r => r.cid)
      let matchedKeys := rows.map (fun r => r.ekey)
      let reasonsMap :=
        (rows.foldl (fun m r => addSetTag m r.cid r.reason) []).map
          (fun p => (p.1, sortStrings p.2))
      let ordered := dedupKeepFirst ids
      let rulerHits :=
        if inp.rulerQuery then
          ordered.filter (fun cid =>
            ((lookupTags reasonsMap cid).getD []).any
              (fun r => r = "alias" || r = "phonetic"))
        else []
      ⟨ordered, true, none, sortStrings (dedupKeepFirst matchedKeys), keys,
        reasonsMap, rulerHits, useRelaxed, rows⟩

/-! ## Fusion engine (`nodes.merge_ids_node`, lines 1086-1132) -/

/-- The state fields read by `merge_ids_node`: `embIds` is
`(embed_results.get("ids") or [[]])[0]`, `chromaIdsState` the optional
`chroma_ids` field. -/
structure MergeInput where
  embIds : List String
  kgIds : List String
  topK : Nat
  chromaIdsState : Option (List String)
  kgRulerHitIds : List String
  chromaAvailable : Bool
  kgAvailable : Bool
deriving DecidableEq

structure SourceCounts where
  chroma : Nat
  kg : Nat
  both : Nat
  selected : Nat
  chromaAvailable : Bool
  kgAvailable : Bool
deriving DecidableEq

structure MergeResult where
  finalIds : List String
  provenance : List (String × List String)
  provenanceExtra : List (String × List String)
  sourceCounts : SourceCounts
deriving DecidableEq

/-- Python `a or b` on lists. -/
def orElseList (a b : List String) : List String := if a = [] then b else a

/-- The `chroma_ids = list(state.get("chroma_ids") or emb_ids or [])` value. -/
def chromaListOf (inp : MergeInput) : List String :=
  orElseList (inp.chromaIdsState.getD []) (orElseList inp.embIds [])

/-- `nodes.merge_ids_node` (lines 1086-1132). -/
def merge_ids_node (inp : MergeInput) : MergeResult :=
  let emb_ids := inp.embIds
  let kg_ids := inp.kgIds
  let o1 := (mergeLoop ([] : List String) kg_ids).1
  let s1 := (mergeLoop ([] : List String) kg_ids).2
  let o2 := (mergeLoop s1 emb_ids).1
  let ordered := o1 ++ o2
  let final_ids := ordered.take inp.topK
  let chroma_ids := chromaListOf inp
  let prov := kg_ids.foldl (fun m kid => addSetTag m kid "kg")
    (chroma_ids.foldl (fun m cid => addSetTag m cid "chroma") [])
  let provExtra := inp.kgRulerHitIds.foldl
    (fun m cid => addListTag m cid "EntityRuler regex hit") []
  let both := chroma_ids.filter (fun i => i ∈ kg_ids)
  { finalIds := final_ids
    provenance := prov.map (fun p => (p.1, sortStrings p.2))
    provenanceExtra := provExtra
    sourceCounts :=
      ⟨chroma_ids.length, kg_ids.length, both.length, final_ids.length,
        inp.chromaAvailable, inp.kgAvailable⟩ }

/-! ## Concrete stores and inputs used by the claim theorems -/

/-- A store with two entities, each mentioned by one chunk. -/
def twoKeyDB : GraphDB :=
  ⟨[⟨"ORG|a", none⟩, ⟨"ORG|b", none⟩], [], [], [("c1", "ORG|a"), ("c2", "ORG|b")]⟩

/-- A query for both entities of `twoKeyDB` with `kg_limit = 1`. -/
def limitOneInput : KgInput :=
  ⟨[⟨some "ORG", "a"⟩, ⟨some "ORG", "b"⟩], true, some "pw", 1, false, Except.ok twoKeyDB⟩

/-- A store in which the query text `a` only resolves through an `Alias`
node. -/
def aliasDB : GraphDB :=
  ⟨[⟨"ORG|x", none⟩], [("a", "ORG|x")], [], [("c1", "ORG|x")]⟩

/-- Query against `aliasDB` without ruler-sourced query entities. -/
def aliasInput : KgInput :=
  ⟨[⟨some "ORG", "a"⟩], true, some "pw", 25, false, Except.ok aliasDB⟩

/-- Query against `aliasDB` with ruler-sourced query entities. -/
def aliasRulerInput : KgInput :=
  ⟨[⟨some "ORG", "a"⟩], true, some "pw", 25, true, Except.ok aliasDB⟩

/-- A store none of whose entities match the strict query for `ORG|b`. -/
def strictMissInput : KgInput :=
  ⟨[⟨some "ORG", "b"⟩], false, some "pw", 25, false, Except.ok aliasDB⟩

/-- The empty store. -/
def emptyDB : GraphDB := ⟨[], [], [], []⟩

/-- One keyed query entity, no password. -/
def noPasswordInput : KgInput :=
  ⟨[⟨some "ORG", "a"⟩], true, none, 25, false, Except.ok emptyDB⟩

/-- Merge input for the graceful-degradation witness: empty graph results,
two vector results, `top_k = 1`. -/
def vectorOnlyMergeInput : MergeInput := ⟨["c1", "c2"], [], 1, none, [], false, false⟩

/-! ## Helper lemmas -/

theorem memB_iff [DecidableEq α] (a : α) (l : List α) : memB a l = true ↔ a ∈ l := by
  induction l with
  | nil => simp [memB]
  | cons b rest ih =>
    simp only [memB, List.mem_cons]
    by_cases h : a = b <;> simp [h, ih]

theorem mergeLoop_fst [DecidableEq α] (seen : List α) (l : List α) :
    (mergeLoop seen l).1 = dedupSeen seen l := by
  induction l generalizing seen with
  | nil => rfl
  | cons a rest ih =>
    simp only [mergeLoop, dedupSeen]
    by_cases h : memB a seen = true <;> simp [h, ih]

theorem dedupSeen_append [DecidableEq α] (seen : List α) (l1 l2 : List α) :
    dedupSeen seen (l1 ++ l2) = dedupSeen seen l1 ++ dedupSeen (mergeLoop seen l1).2 l2 := by
  induction l1 generalizing seen with
  | nil => rfl
  | cons a rest ih =>
    simp only [List.cons_append, dedupSeen, mergeLoop]
    by_cases h : memB a seen = true <;> simp [h, ih]

theorem dedupSeen_of_nodup [DecidableEq α] (seen : List α) (l : List α)
    (hnd : l.Nodup) (hdis : ∀ a ∈ l, memB a seen = false) : dedupSeen seen l = l := by
  induction l generalizing seen with
  | nil => rfl
  | cons a rest ih =>
    have ha : memB a seen = false := hdis a (List.mem_cons_self a rest)
    simp only [dedupSeen, ha, Bool.false_eq_true, if_false]
    congr 1
    refine ih (a :: seen) (List.nodup_cons.mp hnd).2 ?_
    intro b hb
    have hba : b ≠ a := fun h => (List.nodup_cons.mp hnd).1 (h ▸ hb)
    simp [memB, hba, hdis b (List.mem_cons_of_mem a hb)]

theorem lookupPairs_pred (p : Char → Bool) (ps : List (Char × Char)) (c : Char)
    (h : ∀ q ∈ ps, p q.2 = p q.1) : p (lookupPairs ps c) = p c := by
  induction ps with
  | nil => rfl
  | cons q rest ih =>
    obtain ⟨k, v⟩ := q
    simp only [lookupPairs]
    by_cases hc : c = k
    · subst hc
      simpa using h (c, v) (List.mem_cons_self _ _)
    · simp only [hc, if_false]
      exact ih fun q hq => h q (List.mem_cons_of_mem _ hq)

theorem isSpace_asciiUpper (c : Char) : isSpaceChar (asciiUpper c) = isSpaceChar c :=
  lookupPairs_pred isSpaceChar lowerUpperPairs c (by decide)

theorem dropWhile_map_pred (f : Char → Char) (p : Char → Bool)
    (h : ∀ c, p (f c) = p c) (l : List Char) :
    List.dropWhile p (l.map f) = (List.dropWhile p l).map f := by
  induction l with
  | nil => rfl
  | cons c rest ih =>
    simp only [List.map_cons, List.dropWhile_cons, h c]
    by_cases hp : p c = true <;> simp [hp, ih]

theorem pyStripWs_map_upper (l : List Char) :
    pyStripWs (l.map asciiUpper) = (pyStripWs l).map asciiUpper := by
  unfold pyStripWs
  rw [dropWhile_map_pred _ _ isSpace_asciiUpper, ← List.map_reverse,
    dropWhile_map_pred _ _ isSpace_asciiUpper, ← List.map_reverse]

theorem memB_cons [DecidableEq α] (a b : α) (l : List α) :
    memB a (b :: l) = (decide (a = b) || memB a l) := by
  simp only [memB]
  by_cases h : a = b <;> simp [h]

theorem memB_append [DecidableEq α] (a : α) (l1 l2 : List α) :
    memB a (l1 ++ l2) = (memB a l1 || memB a l2) := by
  induction l1 with
  | nil => simp [memB]
  | cons b rest ih => simp [memB_cons, ih, Bool.or_assoc]

theorem dedupSeen_congr [DecidableEq α] (seen1 seen2 l : List α)
    (h : ∀ a, memB a seen1 = memB a seen2) : dedupSeen seen1 l = dedupSeen seen2 l := by
  induction l generalizing seen1 seen2 with
  | nil => rfl
  | cons a rest ih =>
    simp only [dedupSeen, h a]
    by_cases ha : memB a seen2 = true
    · simp only [ha, if_true]
      exact ih _ _ h
    · simp only [ha, Bool.false_eq_true, if_false]
      congr 1
      exact ih _ _ fun b => by simp [memB_cons, h b]

theorem mergeLoop_snd_mem [DecidableEq α] (seen l : List α) (a : α) :
    memB a (mergeLoop seen l).2 = (memB a seen || memB a l) := by
  induction l generalizing seen with
  | nil => simp [mergeLoop, memB]
  | cons b rest ih =>
    simp only [mergeLoop]
    by_cases hb : memB b seen = true
    · simp only [hb, if_true, ih, memB_cons]
      by_cases hab : a = b
      · subst hab
        simp [hb]
      · simp [hab]
    · simp only [hb, Bool.false_eq_true, if_false, ih, memB_cons]
      by_cases hab : a = b <;> by_cases has : memB a seen = true <;>
        simp [hab, has, Bool.or_comm]

theorem dedupSeen_mem [DecidableEq α] (seen l : List α) (a : α) :
    memB a (dedupSeen seen l) = (memB a l && !memB a seen) := by
  induction l generalizing seen with
  | nil => simp [dedupSeen, memB]
  | cons b rest ih =>
    simp only [dedupSeen]
    by_cases hb : memB b seen = true
    · simp only [hb, if_true, ih, memB_cons]
      by_cases hab : a = b
      · subst hab
        simp [hb]
      · simp [hab]
    · simp only [hb, Bool.false_eq_true, if_false, memB_cons, ih]
      by_cases hab : a = b
      · subst hab
        simp [hb]
      · by_cases har : memB a rest = true <;> by_cases has : memB a seen = true <;>
          simp [hab, har, has]

theorem addSetTag_keys (m : List (String × List String)) (id tag : String) :
    (addSetTag m id tag).map Prod.fst =
      if memB id (m.map Prod.fst) then m.map Prod.fst else m.map Prod.fst ++ [id] := by
  induction m with
  | nil => simp [addSetTag, memB]
  | cons p rest ih =>
    obtain ⟨k, v⟩ := p
    simp only [addSetTag, List.map_cons, memB_cons]
    by_cases h : k = id
    · subst h
      simp
    · have h' : (id = k) = False := by simp [Ne.symm h]
      simp only [h, if_false, List.map_cons, ih, h', decide_False, Bool.false_or]
      by_cases hm : memB id (rest.map Prod.fst) = true <;> simp [hm]

theorem foldl_addSetTag_keys (l : List String) (tag : String)
    (m : List (String × List String)) :
    ((l.foldl (fun acc x => addSetTag acc x tag) m).map Prod.fst) =
      m.map Prod.fst ++ dedupSeen (m.map Prod.fst) l := by
  induction l generalizing m with
  | nil => simp [dedupSeen]
  | cons x xs ih =>
    simp only [List.foldl_cons, dedupSeen, ih, addSetTag_keys]
    by_cases h : memB x (m.map Prod.fst) = true
    · simp [h]
    · simp only [h, Bool.false_eq_true, if_false, List.append_assoc, List.cons_append,
        List.nil_append]
      congr 2
      exact dedupSeen_congr _ _ _ fun a => by simp [memB_cons, memB_append, memB, Bool.or_comm]

theorem lookupTags_addListTag_self (m : List (String × List String)) (id tag : String) :
    lookupTags (addListTag m id tag) id = some ((lookupTags m id).getD [] ++ [tag]) := by
  induction m with
  | nil => simp [addListTag, lookupTags]
  | cons p rest ih =>
    obtain ⟨k, v⟩ := p
    by_cases h : k = id
    · subst h
      simp [addListTag, lookupTags]
    · simp [addListTag, lookupTags, h, ih]

theorem lookupTags_addListTag_ne (m : List (String × List String)) (id id' tag : String)
    (h : id' ≠ id) : lookupTags (addListTag m id tag) id' = lookupTags m id' := by
  induction m with
  | nil => simp [addListTag, lookupTags, Ne.symm h]
  | cons p rest ih =>
    obtain ⟨k, v⟩ := p
    by_cases hk : k = id
    · subst hk
      simp [addListTag, lookupTags, Ne.symm h]
    · simp [addListTag, lookupTags, hk, ih]

theorem foldl_addListTag_mem (tag : String) (hits : List String)
    (m : List (String × List String)) (cid : String)
    (h : cid ∈ hits ∨ ∃ t0, lookupTags m cid = some t0 ∧ tag ∈ t0) :
    ∃ tags, lookupTags (hits.foldl (fun acc c => addListTag acc c tag) m) cid = some tags ∧
      tag ∈ tags := by
  induction hits generalizing m with
  | nil =>
    rcases h with h | ⟨t0, hl, ht⟩
    · exact absurd h (List.not_mem_nil cid)
    · exact ⟨t0, hl, ht⟩
  | cons x xs ih =>
    simp only [List.foldl_cons]
    apply ih
    by_cases hx : cid = x
    · subst hx
      exact Or.inr ⟨_, lookupTags_addListTag_self m cid tag, by simp⟩
    · rcases h with h | ⟨t0, hl, ht⟩
      · rcases List.mem_cons.mp h with h1 | h2
        · exact absurd h1 hx
        · exact Or.inl h2
      · exact Or.inr ⟨t0, by rw [lookupTags_addListTag_ne _ _ _ _ hx]; exact hl, ht⟩

/-- The ordered, deduplicated fusion list of `merge_ids_node` is exactly the
first-occurrence dedup of the concatenation (kg ids first, then vector
ids). -/
theorem merge_finalIds_eq (inp : MergeInput) :
    (merge_ids_node inp).finalIds = (dedupKeepFirst (inp.kgIds ++ inp.embIds)).take inp.topK := by
  simp only [merge_ids_node, dedupKeepFirst, dedupSeen_append, mergeLoop_fst]

/-- The provenance map of `merge_ids_node` has one entry for every distinct id
of either source list (chroma ids first), regardless of `top_k` truncation. -/
theorem merge_prov_keys (inp : MergeInput) :
    (merge_ids_node inp).provenance.map Prod.fst =
      dedupKeepFirst (chromaListOf inp ++ inp.kgIds) := by
  simp only [merge_ids_node, dedupKeepFirst, dedupSeen_append, List.map_map]
  have hcomp :
      (Prod.fst ∘ fun p : String × List String => (p.1, sortStrings p.2)) = Prod.fst := by
    funext p
    rfl
  rw [hcomp, foldl_addSetTag_keys, foldl_addSetTag_keys]
  simp only [List.map_nil, List.nil_append]
  congr 1
  exact dedupSeen_congr _ _ _ fun a => by
    simp [dedupSeen_mem, mergeLoop_snd_mem, memB]

/-! Helper lemmas for the keyword-augmentation claim. -/

theorem courtLower_eq : courtLower = ['c', 'o', 'u', 'r', 't'] := rfl

theorem matchesKeywordAt_eq (kw l : List Char) :
    matchesKeywordAt kw l =
      (decide ((l.take kw.length).map asciiLower = kw) && !(wordOpt l[kw.length]?)) := by
  induction kw generalizing l with
  | nil =>
    cases l <;> simp [matchesKeywordAt, headWord]
  | cons k ks ih =>
    cases l with
    | nil => simp [matchesKeywordAt]
    | cons c rest =>
      simp only [matchesKeywordAt, ih, List.length_cons, List.take_succ_cons, List.map_cons,
        List.getElem?_cons_succ, List.cons.injEq]
      by_cases h : asciiLower c = k <;> simp [h]

theorem kwScan_eq_occIdx (l pre : List Char) :
    kwScan courtLower pre.length pre.getLast? l =
      (occIdx (pre ++ l) l.length pre.length).map (courtMatchAt (pre ++ l)) := by
  induction l generalizing pre with
  | nil => rfl
  | cons c rest ih =>
    have hdrop : (pre ++ c :: rest).drop pre.length = c :: rest := List.drop_left _ _
    have hcond : standaloneOccB (pre ++ c :: rest) pre.length =
        (!(wordOpt pre.getLast?) && matchesKeywordAt courtLower (c :: rest)) := by
      rw [matchesKeywordAt_eq]
      have hget : (pre ++ c :: rest)[pre.length + 5]? = (c :: rest)[5]? := by
        rw [List.getElem?_append_right (by omega)]
        congr 1
        omega
      have hprev : prevCharAt (pre ++ c :: rest) pre.length = pre.getLast? := by
        unfold prevCharAt
        rcases pre with _ | ⟨a, as⟩
        · simp
        · rw [if_neg (by simp), List.getElem?_append_left (by simp),
            List.getLast?_eq_getElem?]
      rw [standaloneOccB, hdrop, hget, hprev]
      show (decide (((c :: rest).take 5).map asciiLower = courtLower) &&
            !(wordOpt pre.getLast?) && !(wordOpt (c :: rest)[(5 : Nat)]?)) =
          (!(wordOpt pre.getLast?) &&
            (decide (((c :: rest).take 5).map asciiLower = courtLower) &&
              !(wordOpt (c :: rest)[(5 : Nat)]?)))
      cases decide (((c :: rest).take 5).map asciiLower = courtLower) <;>
        cases wordOpt pre.getLast? <;> cases wordOpt (c :: rest)[(5 : Nat)]? <;> rfl
    have hrec : kwScan courtLower (pre.length + 1) (some c) rest =
        (occIdx (pre ++ c :: rest) rest.length (pre.length + 1)).map
          (courtMatchAt (pre ++ c :: rest)) := by
      have h1 := ih (pre ++ [c])
      simp only [List.length_append, List.length_cons, List.length_nil,
        List.getLast?_concat, List.append_assoc, List.singleton_append] at h1
      exact h1
    simp only [kwScan, occIdx, hcond]
    cases hc : (!(wordOpt pre.getLast?) && matchesKeywordAt courtLower (c :: rest)) with
    | true =>
      simp only [if_true, hrec, List.map_cons]
      congr 1
      simp only [courtMatchAt, hdrop]
      rfl
    | false =>
      simp only [Bool.false_eq_true, if_false, hrec]

theorem occ_variant (text : List Char) (i : Nat) (h : standaloneOccB text i = true) :
    ((text.drop i).take 5).map asciiLower = courtLower := by
  unfold standaloneOccB at h
  simp only [Bool.and_eq_true, decide_eq_true_eq] at h
  exact h.1.1

theorem standaloneOccB_lt (text : List Char) (i : Nat)
    (h : standaloneOccB text i = true) : i < text.length := by
  have h2 := occ_variant text i h
  have hlen : (((text.drop i).take 5).map asciiLower).length = 5 := by
    rw [h2, courtLower_eq]
    rfl
  simp only [List.length_map, List.length_take, List.length_drop] at hlen
  omega

theorem occIdx_nil_of_none (text : List Char) (n i : Nat)
    (h : ∀ j, standaloneOccB text j = false) : occIdx text n i = [] := by
  induction n generalizing i with
  | zero => rfl
  | succ n ihn => simp [occIdx, h i, ihn]

theorem occIdx_mem_occ (text : List Char) (n i x : Nat) (h : x ∈ occIdx text n i) :
    standaloneOccB text x = true := by
  induction n generalizing i with
  | zero => exact absurd h (List.not_mem_nil x)
  | succ n ihn =>
    by_cases hi : standaloneOccB text i = true
    · simp only [occIdx, hi, if_true] at h
      rcases List.mem_cons.mp h with rfl | h2
      · exact hi
      · exact ihn _ h2
    · simp only [occIdx, hi, Bool.false_eq_true, if_false] at h
      exact ihn _ h

theorem occIdx_first (text : List Char) (i0 : Nat)
    (h : standaloneOccB text i0 = true)
    (hmin : ∀ j, j < i0 → standaloneOccB text j = false) :
    ∀ n i, i ≤ i0 → i0 < i + n → ∃ tl, occIdx text n i = i0 :: tl := by
  intro n
  induction n with
  | zero => intro i h1 h2; omega
  | succ n ihn =>
    intro i h1 h2
    by_cases hi : i = i0
    · subst hi
      exact ⟨occIdx text n (i + 1), by simp [occIdx, h]⟩
    · have hlt : i < i0 := lt_of_le_of_ne h1 hi
      have hx : standaloneOccB text i = false := hmin i hlt
      simp only [occIdx, hx, Bool.false_eq_true, if_false]
      exact ihn (i + 1) (by omega) (by omega)

theorem lookupPairs_result (ps : List (Char × Char)) (c : Char) :
    lookupPairs ps c = c ∨ (c, lookupPairs ps c) ∈ ps := by
  induction ps with
  | nil => exact Or.inl rfl
  | cons q rest ihp =>
    obtain ⟨k, v⟩ := q
    by_cases h : c = k
    · subst h
      exact Or.inr (by simp [lookupPairs])
    · rcases ihp with h' | h'
      · exact Or.inl (by simpa [lookupPairs, h] using h')
      · refine Or.inr ?_
        simp only [lookupPairs, h, if_false]
        exact List.mem_cons_of_mem _ h'

theorem asciiLower_char_cases (c t u : Char)
    (hmem : ∀ p ∈ upperLowerPairs, p.2 = t → p.1 = u)
    (h : asciiLower c = t) : c = t ∨ c = u := by
  have hl : lookupPairs upperLowerPairs c = t := h
  rcases lookupPairs_result upperLowerPairs c with h' | h'
  · exact Or.inl (h'.symm.trans hl)
  · rw [hl] at h'
    exact Or.inr (hmem _ h' rfl)

theorem norm_of_court_variant (l : List Char) (h : l.map asciiLower = courtLower) :
    normTextL l = courtLower := by
  have hlen : l.length = 5 := by
    have := congrArg List.length h
    simpa using this
  rcases l with _ | ⟨a, _ | ⟨b, _ | ⟨c, _ | ⟨d, _ | ⟨e, _ | ⟨f, tl⟩⟩⟩⟩⟩⟩ <;> simp at hlen
  rw [courtLower_eq] at h
  simp only [List.map_cons, List.map_nil, List.cons.injEq, and_true] at h
  obtain ⟨h1, h2, h3, h4, h5⟩ := h
  rcases asciiLower_char_cases a 'c' 'C' (by decide) h1 with rfl | rfl <;>
    rcases asciiLower_char_cases b 'o' 'O' (by decide) h2 with rfl | rfl <;>
      rcases asciiLower_char_cases c 'u' 'U' (by decide) h3 with rfl | rfl <;>
        rcases asciiLower_char_cases d 'r' 'R' (by decide) h4 with rfl | rfl <;>
          rcases asciiLower_char_cases e 't' 'T' (by decide) h5 with rfl | rfl <;>
            decide

theorem augLoop_none (existing : List (List Char)) (ms : List KwMatch)
    (h : ∀ m ∈ ms, normTextL m.span ∈ existing) : augLoop existing ms = none := by
  induction ms with
  | nil => rfl
  | cons m rest ihm =>
    simp only [augLoop, if_pos (h m (List.mem_cons_self m rest))]
    exact ihm fun m' hm' => h m' (List.mem_cons_of_mem m hm')

/-! Sanity examples mirroring `tests/test_legal_normalizer.py`. -/

example : strip_stopwords ("Petitioner v. Respondent versus Court".data) = "Court".data := by
  decide

example : collapse_initials ("V.R. Krishna Iyer".data) = "vr Krishna Iyer".data := by decide

example :
    expand_abbreviations ("SC judgment; HC order".data) =
      "supreme court judgment; high court order".data := by decide

example :
    normalize_sections ("S. IV-A of IPC and Section 304B".data) =
      "section 4a of IPC and section 304b".data := by decide

example : phonetic_key "Kaladevi" = phonetic_key "Kala Devi" := by decide

example :
    normalize_legal_entity "Smt. Kala Devi v. State of Karnataka" =
      normalize_legal_entity "SMT KALADEVI vs STATE OF KARNATAKA" := by decide

/-! ## Claim C1 -/

/-- C1 (code bug): the spec's invariant "normalization is idempotent:
`normalize_legal_entity (normalize_legal_entity s) = normalize_legal_entity s`
for every string `s`" fails on the code at the input `"a-1"`.  The dash
substitution (step 9) runs after the footnote-digit stripper (step 2), so the
first pass turns `"a-1"` into the whitespace-free `"a1"`, and only the second
pass sees a letter run directly followed by digits and strips the `1`. -/
theorem normalize_not_idempotent_at_a_dash_one :
    normalize_legal_entity (normalize_legal_entity "a-1") ≠ normalize_legal_entity "a-1" ∧
      normalize_legal_entity "a-1" = "a1" ∧ normalize_legal_entity "a1" = "a" := by decide

/-! ## Claim C2 -/

/-- C2 (counterexample): the claim `make_entity_key label text =
upper(trim(label)) ++ "|" ++ normalize_legal_entity text` fails at
`label = none`, `text = "the"`: the key builder uses its own `_normalize_text`
(which keeps `"the"`), not the §4.1 `normalize_legal_entity` (for which
`"the"` is a stopword and normalizes to `""`). -/
theorem make_entity_key_ne_matching_normalization :
    make_entity_key none "the" ≠
        specLabelUpperTrim none ++ "|" ++ normalize_legal_entity "the" ∧
      make_entity_key none "the" = "|the" ∧ normalize_legal_entity "the" = "" := by decide

/-- C2 (amended): for every label and text,
`make_entity_key label text = upper-cased/trimmed label ++ "|" ++
_normalize_text text` — the text component is the key builder's own
normalization (`nodes._normalize_text`), not `normalize_legal_entity`. -/
theorem make_entity_key_spec (label : Option String) (text : String) :
    make_entity_key label text = specLabelUpperTrim label ++ "|" ++ normalize_text text := by
  have h : normalize_label label = specLabelUpperTrim label := by
    unfold normalize_label specLabelUpperTrim
    rw [pyStripWs_map_upper]
  rw [make_entity_key, h]

/-! ## Claim C3 -/

/-- C3: for every kg id list, vector id list and `top_k`, the merged
`finalIds` are the kg-sourced ids first in their given order with duplicates
dropped (first occurrence kept), then the vector-sourced ids not already
emitted in their given order — i.e. the first-occurrence dedup of
`kgIds ++ embIds` — truncated to at most `top_k`; in particular
`kgIds = [c3, c1]`, `vectorIds = [c1, c2, c4]`, `topK = 3` gives
`[c3, c1, c2]`. -/
theorem merge_kg_priority_fusion (inp : MergeInput) :
    (merge_ids_node inp).finalIds =
        (dedupKeepFirst (inp.kgIds ++ inp.embIds)).take inp.topK ∧
      (merge_ids_node ⟨["c1", "c2", "c4"], ["c3", "c1"], 3, none, [], false, true⟩).finalIds =
        ["c3", "c1", "c2"] :=
  ⟨merge_finalIds_eq inp, by decide⟩

/-! ## Claim C4 -/

/-- C4 (code bug): `neo4j_query_by_entities_node` reads `kg_limit` and passes
it to `tx.run(..., limit=limit)`, but the Cypher text of `query_tx_strict`
never references `$limit`, so the matched-identity set is not truncated.  With
`kg_limit = 1` and two strict matches, both distinct matched entity keys
contribute chunks, contradicting "at most `limit` distinct matched entity
keys contribute chunks". -/
theorem kg_limit_not_enforced :
    limitOneInput.kgLimit = 1 ∧
      (neo4j_query_by_entities_node limitOneInput).kgMatchedKeys = ["ORG|a", "ORG|b"] ∧
      (neo4j_query_by_entities_node limitOneInput).kgIds = ["c1", "c2"] ∧
      (neo4j_query_by_entities_node limitOneInput).kgMatchReasons =
        [("c1", ["direct"]), ("c2", ["direct"])] := by decide

/-! ## Claim C5 -/

/-- C5 (counterexample): at `embIds = [c1, c1, c2]`, `kgIds = []`,
`topK = 1`, the provenance map has an entry for `"c2"`, which does not survive
truncation (`finalIds = [c1]`), so the provenance map does not "cover only the
post-truncation survivors"; and `source_counts.chroma = 3` is the length of
the vector list, not the number of its distinct ids (2). -/
theorem merge_counts_prov_cex :
    ((merge_ids_node ⟨["c1", "c1", "c2"], [], 1, none, [], false, false⟩).provenance.map
        Prod.fst = ["c1", "c2"]) ∧
      (merge_ids_node ⟨["c1", "c1", "c2"], [], 1, none, [], false, false⟩).finalIds = ["c1"] ∧
      (merge_ids_node ⟨["c1", "c1", "c2"], [], 1, none, [], false,
          false⟩).sourceCounts.chroma = 3 ∧
      dedupKeepFirst ["c1", "c1", "c2"] = ["c1", "c2"] := by decide

/-- C5 (amended): `source_counts` is computed over the full pre-truncation id
lists — `chroma`/`kg` are the list lengths (with multiplicity, not distinct
counts), `both` counts the vector-list entries also present in the kg list,
`selected` is the final length — and the `chroma`/`kg`/`both` counts are
independent of `top_k`; `finalIds` covers only the post-truncation survivors,
while the provenance map covers every distinct id of either source list
regardless of truncation. -/
theorem merge_source_counts_spec (inp : MergeInput) (t : Nat) :
    (merge_ids_node inp).sourceCounts.chroma = (chromaListOf inp).length ∧
      (merge_ids_node inp).sourceCounts.kg = inp.kgIds.length ∧
      (merge_ids_node inp).sourceCounts.both =
        ((chromaListOf inp).filter (fun i => i ∈ inp.kgIds)).length ∧
      (merge_ids_node inp).sourceCounts.selected = (merge_ids_node inp).finalIds.length ∧
      (merge_ids_node ⟨inp.embIds, inp.kgIds, t, inp.chromaIdsState, inp.kgRulerHitIds,
          inp.chromaAvailable, inp.kgAvailable⟩).sourceCounts.chroma =
        (merge_ids_node inp).sourceCounts.chroma ∧
      (merge_ids_node ⟨inp.embIds, inp.kgIds, t, inp.chromaIdsState, inp.kgRulerHitIds,
          inp.chromaAvailable, inp.kgAvailable⟩).sourceCounts.kg =
        (merge_ids_node inp).sourceCounts.kg ∧
      (merge_ids_node ⟨inp.embIds, inp.kgIds, t, inp.chromaIdsState, inp.kgRulerHitIds,
          inp.chromaAvailable, inp.kgAvailable⟩).sourceCounts.both =
        (merge_ids_node inp).sourceCounts.both ∧
      ((merge_ids_node inp).provenance.map Prod.fst =
        dedupKeepFirst (chromaListOf inp ++ inp.kgIds)) ∧
      (merge_ids_node inp).finalIds =
        (dedupKeepFirst (inp.kgIds ++ inp.embIds)).take inp.topK := by
  refine ⟨rfl, rfl, rfl, rfl, ?_, ?_, ?_, merge_prov_keys inp, merge_finalIds_eq inp⟩ <;>
    simp [merge_ids_node, chromaListOf]

/-! ## Claim C6 -/

/-- C6 (counterexample): with no keyed query entities and the password absent,
the node returns `kg_available = true` and no diagnostic (the empty-keys early
return at line 982 precedes the credential check at line 989), contradicting
"whenever … the password credential is absent, the graph matcher returns …
kg_available set false, and a non-empty diagnostic error string". -/
theorem kg_no_password_no_entities_cex :
    (neo4j_query_by_entities_node ⟨[], true, none, 25, false,
        Except.ok emptyDB⟩).kgAvailable = true ∧
      (neo4j_query_by_entities_node ⟨[], true, none, 25, false,
        Except.ok emptyDB⟩).kgError = none := by decide

/-- C6 (amended): whenever at least one query entity has non-empty text and
the password credential is absent (or the graph store fails with a non-empty
error message), the graph matcher returns normally with an empty chunk-id
list, `kg_available = false` and a non-empty diagnostic string; and the merge
step with empty (duplicate-free) kg ids returns the vector-only order
truncated to `top_k`, surfacing `kg_available = false` in the output. -/
theorem kg_unavailable_graceful (inp : KgInput) (minp : MergeInput)
    (hkeys : queryKeys inp.entities ≠ [])
    (hfail : inp.password.getD "" = "" ∨ ∃ m, inp.db = Except.error m ∧ m ≠ "")
    (hkg : minp.kgIds = []) (hnodup : minp.embIds.Nodup)
    (hav : minp.kgAvailable = false) :
    (neo4j_query_by_entities_node inp).kgIds = [] ∧
      (neo4j_query_by_entities_node inp).kgAvailable = false ∧
      (∃ m, (neo4j_query_by_entities_node inp).kgError = some m ∧ m ≠ "") ∧
      (merge_ids_node minp).finalIds = minp.embIds.take minp.topK ∧
      (merge_ids_node minp).sourceCounts.kgAvailable = false := by
  have hmerge1 : (merge_ids_node minp).finalIds = minp.embIds.take minp.topK := by
    rw [merge_finalIds_eq, hkg, List.nil_append, dedupKeepFirst,
      dedupSeen_of_nodup [] _ hnodup (fun a _ => rfl)]
  have hmerge2 : (merge_ids_node minp).sourceCounts.kgAvailable = false := by
    simpa [merge_ids_node] using hav
  by_cases hpw : inp.password.getD "" = ""
  · have hres : neo4j_query_by_entities_node inp =
        ⟨[], false, some "neo4j_password not provided", [], [], [], [], false, []⟩ := by
      simp only [neo4j_query_by_entities_node, if_neg hkeys, hpw, if_true]
    rw [hres]
    exact ⟨rfl, rfl, ⟨"neo4j_password not provided", rfl, by decide⟩, hmerge1, hmerge2⟩
  · rcases hfail with h | ⟨m, hdb, hm⟩
    · exact absurd h hpw
    · have hres : neo4j_query_by_entities_node inp =
          ⟨[], false, some m, [], queryKeys inp.entities, [], [], false, []⟩ := by
        simp only [neo4j_query_by_entities_node, if_neg hkeys, if_neg hpw, hdb]
      rw [hres]
      exact ⟨rfl, rfl, ⟨m, rfl, hm⟩, hmerge1, hmerge2⟩

/-- Witness for the amended C6: one keyed entity, password absent, two vector
ids with `top_k = 1`. -/
theorem kg_unavailable_graceful_witness :
    (neo4j_query_by_entities_node noPasswordInput).kgIds = [] ∧
      (neo4j_query_by_entities_node noPasswordInput).kgAvailable = false ∧
      (∃ m, (neo4j_query_by_entities_node noPasswordInput).kgError = some m ∧ m ≠ "") ∧
      (merge_ids_node vectorOnlyMergeInput).finalIds =
        vectorOnlyMergeInput.embIds.take vectorOnlyMergeInput.topK ∧
      (merge_ids_node vectorOnlyMergeInput).sourceCounts.kgAvailable = false :=
  kg_unavailable_graceful noPasswordInput vectorOnlyMergeInput (by decide)
    (Or.inl (by decide)) (by decide) (by decide) (by decide)

/-! ## Claim C7 -/

/-- C7: when the node actually queries the store (non-empty keys, credential
present, driver healthy), the relaxed label-agnostic fallback executes iff the
strict unioned query returned zero rows and the caller did not request
strict-only behaviour; in particular, when the strict query returns one or
more rows, the rows processed are exactly the strict rows (no relaxed
augmentation). -/
theorem relaxed_fallback_iff_strict_empty (inp : KgInput) (g : GraphDB)
    (hdb : inp.db = Except.ok g)
    (hpw : ¬ inp.password.getD "" = "")
    (hkeys : ¬ queryKeys inp.entities = []) :
    ((neo4j_query_by_entities_node inp).usedRelaxed = true ↔
        (strictRows g (queryKeys inp.entities) (queryNormKeys inp.entities)
            (queryPhonetics inp.entities) = [] ∧ inp.strictMatch = false)) ∧
      (strictRows g (queryKeys inp.entities) (queryNormKeys inp.entities)
          (queryPhonetics inp.entities) ≠ [] →
        (neo4j_query_by_entities_node inp).rowsUsed =
          strictRows g (queryKeys inp.entities) (queryNormKeys inp.entities)
            (queryPhonetics inp.entities)) := by
  simp only [neo4j_query_by_entities_node, if_neg hkeys, if_neg hpw, hdb]
  constructor
  · rw [Bool.and_eq_true, Bool.not_eq_true', List.isEmpty_iff]
  · intro h
    have : (strictRows g (queryKeys inp.entities) (queryNormKeys inp.entities)
        (queryPhonetics inp.entities)).isEmpty = false := by
      rw [← Bool.not_eq_true, List.isEmpty_iff]
      exact h
    simp [this]

/-- Witness for C7: a query whose strict rows are empty with
`strict_match = false` executes the relaxed fallback. -/
theorem relaxed_fallback_iff_strict_empty_witness :
    (neo4j_query_by_entities_node strictMissInput).usedRelaxed = true :=
  (relaxed_fallback_iff_strict_empty strictMissInput aliasDB rfl (by decide)
    (by decide)).1.mpr ⟨by decide, rfl⟩

/-! ## Claim C8 -/

/-- C8 (counterexample): against `aliasDB` the chunk `c1` is reached with
reason set `{alias}`, but because the query carried no ruler-sourced entities
(`query_has_ruler = false`) no auxiliary fuzzy-match tag is attached in the
merged output — `kg_ruler_hit_ids` is only computed when
`state["query_has_ruler"]` is true (line 1068). -/
theorem fuzzy_tag_missing_without_ruler_cex :
    (neo4j_query_by_entities_node aliasInput).kgIds = ["c1"] ∧
      (neo4j_query_by_entities_node aliasInput).kgMatchReasons = [("c1", ["alias"])] ∧
      (neo4j_query_by_entities_node aliasInput).kgRulerHitIds = [] ∧
      lookupTags
        (merge_ids_node ⟨[], (neo4j_query_by_entities_node aliasInput).kgIds, 10, none,
            (neo4j_query_by_entities_node aliasInput).kgRulerHitIds, false,
            true⟩).provenanceExtra "c1" = none := by decide

/-- Helper: when the node queries the store and the query had ruler entities,
the ruler-hit list is the matched chunks whose reason set contains `alias` or
`phonetic`. -/
theorem kg_rulerHits_eq (inp : KgInput) (g : GraphDB)
    (hdb : inp.db = Except.ok g)
    (hpw : ¬ inp.password.getD "" = "")
    (hkeys : ¬ queryKeys inp.entities = [])
    (hruler : inp.rulerQuery = true) :
    (neo4j_query_by_entities_node inp).kgRulerHitIds =
      (neo4j_query_by_entities_node inp).kgIds.filter (fun cid =>
        ((lookupTags (neo4j_query_by_entities_node inp).kgMatchReasons cid).getD []).any
          (fun r => r = "alias" || r = "phonetic")) := by
  simp only [neo4j_query_by_entities_node, if_neg hkeys, if_neg hpw, hdb, hruler, if_true]

/-- C8 (amended): when the query contained ruler-sourced entities
(`query_has_ruler = true`), every chunk whose graph match reason set contains
`alias` or `phonetic` receives the auxiliary low-precision tag
`"EntityRuler regex hit"` in the merged output's `provenance_extra`. -/
theorem fuzzy_tag_with_ruler (inp : KgInput) (g : GraphDB) (minp : MergeInput) (cid : String)
    (hdb : inp.db = Except.ok g)
    (hpw : ¬ inp.password.getD "" = "")
    (hkeys : ¬ queryKeys inp.entities = [])
    (hruler : inp.rulerQuery = true)
    (hflow : minp.kgRulerHitIds = (neo4j_query_by_entities_node inp).kgRulerHitIds)
    (hcid : cid ∈ (neo4j_query_by_entities_node inp).kgIds)
    (hreason :
      "alias" ∈ (lookupTags (neo4j_query_by_entities_node inp).kgMatchReasons cid).getD [] ∨
      "phonetic" ∈ (lookupTags (neo4j_query_by_entities_node inp).kgMatchReasons cid).getD []) :
    ∃ tags, lookupTags (merge_ids_node minp).provenanceExtra cid = some tags ∧
      "EntityRuler regex hit" ∈ tags := by
  have hpred :
      ((lookupTags (neo4j_query_by_entities_node inp).kgMatchReasons cid).getD []).any
        (fun r => r = "alias" || r = "phonetic") = true := by
    rcases hreason with h | h
    · exact List.any_eq_true.mpr ⟨"alias", h, by decide⟩
    · exact List.any_eq_true.mpr ⟨"phonetic", h, by decide⟩
  have hmem : cid ∈ (neo4j_query_by_entities_node inp).kgRulerHitIds := by
    rw [kg_rulerHits_eq inp g hdb hpw hkeys hruler]
    exact List.mem_filter.mpr ⟨hcid, hpred⟩
  have hmem' : cid ∈ minp.kgRulerHitIds := hflow ▸ hmem
  have : (merge_ids_node minp).provenanceExtra =
      minp.kgRulerHitIds.foldl (fun m c => addListTag m c "EntityRuler regex hit") [] := rfl
  rw [this]
  exact foldl_addListTag_mem _ _ _ _ (Or.inl hmem')

/-- Witness for the amended C8: the alias-matched chunk `c1` of `aliasDB` gets
the auxiliary tag when the query had ruler entities. -/
theorem fuzzy_tag_with_ruler_witness :
    ∃ tags, lookupTags
        (merge_ids_node ⟨[], ["c1"], 10, none, ["c1"], false, true⟩).provenanceExtra "c1" =
        some tags ∧ "EntityRuler regex hit" ∈ tags :=
  fuzzy_tag_with_ruler aliasRulerInput aliasDB ⟨[], ["c1"], 10, none, ["c1"], false, true⟩ "c1"
    rfl (by decide) (by decide) rfl (by decide) (by decide) (Or.inl (by decide))

/-! ## Claim C9 -/

/-- C9: phonetic stability — `"Kaladevi"` and `"Kala Devi"` normalize to the
same string, and their phonetic key is the 4-character code `"K431"`. -/
theorem phonetic_stability_kaladevi :
    phonetic_key (normalize_legal_entity "Kaladevi") =
        phonetic_key (normalize_legal_entity "Kala Devi") ∧
      phonetic_key (normalize_legal_entity "Kaladevi") = "K431" := by decide

/-! ## Claim C10 -/

/-- C10: for every text and entity list, if the text has no standalone
occurrence of `court` (case-insensitive, not adjacent to word characters) the
entity list is returned unchanged; if it has one but the keyword's normalized
form (`"court"` — every case variant of the word normalizes to it) already
equals the normalized text of some extracted entity, the list is returned
unchanged; otherwise exactly one synthetic entity with label `ORG`, score 1,
the span of the first occurrence and its offsets is appended.  (At most one
entity is ever appended, as the conclusion shows.) -/
theorem keyword_augmentation_court (text : List Char) (ents : List PyEntity) :
    ((∀ i, standaloneOccB text i = false) →
        augment_entities_with_keywords text ents = ents) ∧
      ((∃ i, standaloneOccB text i = true) → courtLower ∈ existingNorms ents →
        augment_entities_with_keywords text ents = ents) ∧
      (∀ i, standaloneOccB text i = true → (∀ j, j < i → standaloneOccB text j = false) →
        courtLower ∉ existingNorms ents →
        augment_entities_with_keywords text ents =
          ents ++ [⟨some "ORG", (text.drop i).take 5, i, i + 5, some 1, true⟩]) := by
  have hscan : kwScan courtLower 0 none text =
      (occIdx text text.length 0).map (courtMatchAt text) := by
    simpa using kwScan_eq_occIdx text []
  refine ⟨?_, ?_, ?_⟩
  · intro hno
    unfold augment_entities_with_keywords
    rw [hscan, occIdx_nil_of_none text text.length 0 hno]
    rfl
  · intro _ hmem
    unfold augment_entities_with_keywords
    rw [hscan, augLoop_none]
    intro m hm
    obtain ⟨x, hx, rfl⟩ := List.mem_map.mp hm
    have hvar := occ_variant text x (occIdx_mem_occ text text.length 0 x hx)
    show normTextL ((text.drop x).take 5) ∈ _
    rw [norm_of_court_variant _ hvar]
    exact hmem
  · intro i hocc hmin hnot
    unfold augment_entities_with_keywords
    rw [hscan]
    obtain ⟨tl, htl⟩ := occIdx_first text i hocc hmin text.length 0 (Nat.zero_le i)
      (by simpa using standaloneOccB_lt text i hocc)
    rw [htl]
    have hvar := occ_variant text i hocc
    have hcond : ¬ normTextL (courtMatchAt text i).span ∈ existingNorms ents := by
      show ¬ normTextL ((text.drop i).take 5) ∈ _
      rw [norm_of_court_variant _ hvar]
      exact hnot
    simp only [List.map_cons, augLoop, if_neg hcond]
    rfl

/-- Witness for C10: augmenting `"a court"` with an empty entity list appends
exactly the synthetic `ORG` entity for the occurrence at offset 2. -/
theorem keyword_augmentation_court_witness :
    augment_entities_with_keywords "a court".data [] =
      [⟨some "ORG", ("a court".data.drop 2).take 5, 2, 2 + 5, some 1, true⟩] :=
  (keyword_augmentation_court "a court".data []).2.2 2 (by decide) (by decide) (by decide)

end LegalGenie
